import Mathlib

/-!
Verification of the change-detection and sync-execution core of `file_sync.py`.

The Python source is embedded shallowly: entry collections are lists, the
filesystem is an explicit state (files with contents, directories), Python
exceptions become `Except`, and `print` calls become an explicit log.
Python `dict`/`set` iteration over names is modelled in insertion
(first-occurrence) order.  The unbounded `while` retry loop of `delete_dirs`
is modelled with an explicit fuel that is provably sufficient
(see `sweepLoopFuel` and the termination theorem).
-/

set_option autoImplicit false

deriving instance DecidableEq for Except

namespace FileSync

/-- Identity key of a scanned entry (`DirFileKey` in the source): base name,
filesystem creation time, and size (`none` for directories). -/
structure DirFileKey where
  name : String
  creation_time : Int
  size : Option Int := none
  deriving DecidableEq

/-- One scanned filesystem entry (`DirFile` in the source).  In Python,
`DirFile.__eq__` and `__hash__` compare only `(relative_path, name)`; the code
below always spells that comparison out explicitly. -/
structure DirFile where
  relative_path : String
  name : String
  key : DirFileKey
  deriving DecidableEq

/-- Model of `os.path.join` for the relative paths this program builds. -/
def pjoin (a b : String) : String :=
  if a = "" then b else a ++ "/" ++ b

/-- Python `str(DirFile)`: `join(self.relative_path, self.name)`. -/
def DirFile.str (e : DirFile) : String :=
  pjoin e.relative_path e.name

/-- Errors raised during change computation.  `dupName` is the
`Directory/File with same name found` exception; `dupMismatch` is the
fallback `unable to find duplicate name` exception. -/
inductive SyncError where
  | dupName (first second : DirFile)
  | dupMismatch
  deriving DecidableEq

/-- Auxiliary for `dedupFirst`: drop the elements already seen. -/
def dedupFirstAux (seen : List String) : List String → List String
  | [] => []
  | x :: xs =>
    if x ∈ seen then dedupFirstAux seen xs
    else x :: dedupFirstAux (x :: seen) xs

/-- Distinct elements of a list in order of first occurrence: the iteration
order of the keys of a Python `dict` built left to right (and the order we
use to model iteration over a Python `set`). -/
def dedupFirst (l : List String) : List String :=
  dedupFirstAux [] l

/-- The name collection handed to `check_duplicate_names`: the keys of
`dest_name_to_dirfile_map` (resp. the elements of `src_name_set`), whose
cardinality is the number of distinct names. -/
def namesOf (l : List DirFile) : List String :=
  dedupFirst (l.map DirFile.name)

/-- The first two entries of `dir_files` carrying the given name, if any:
the pair at which the inner loop of `check_duplicate_names` raises. -/
def firstTwoWithName (n : String) (dir_files : List DirFile) :
    Option (DirFile × DirFile) :=
  match dir_files.filter (fun e => e.name == n) with
  | a :: b :: _ => some (a, b)
  | _ => none

/-- Python `check_duplicate_names(dir_files, names)`: if the number of distinct
names differs from the number of entries, scan the names in iteration order
and raise at the first name owned by two entries. -/
def check_duplicate_names (dir_files : List DirFile) (names : List String) :
    Except SyncError Unit :=
  if names.length ≠ dir_files.length then
    match names.findSome? (fun n => firstTwoWithName n dir_files) with
    | some (a, b) => .error (.dupName a b)
    | none => .error .dupMismatch
  else .ok ()

/-- Python `dir_file in dest_set`: membership by `(relative_path, name)`,
the `DirFile.__eq__` notion of equality. -/
def locIn (dest : List DirFile) (e : DirFile) : Bool :=
  dest.any (fun d => d.relative_path == e.relative_path && d.name == e.name)

/-- Python `dest_name_to_dirfile_map[n]`: the dict comprehension keeps the
last entry written for each name, hence the first match in the reversed
list. -/
def nameLookup (dest : List DirFile) (n : String) : Option DirFile :=
  dest.reverse.find? (fun d => d.name == n)

/-- The classification loop of `find_missing_and_moved`: skip entries whose
location is already in the destination set, pair by name into `moved`
otherwise, and fall through to `missing`. -/
def classify (dest : List DirFile) : List DirFile → List DirFile × List (DirFile × DirFile)
  | [] => ([], [])
  | e :: rest =>
    if locIn dest e then classify dest rest
    else
      match nameLookup dest e.name with
      | some d => ((classify dest rest).1, (e, d) :: (classify dest rest).2)
      | none => (e :: (classify dest rest).1, (classify dest rest).2)

/-- Python `find_missing_and_moved(src, dest)`: duplicate check on the destination
names, then the classification loop. -/
def find_missing_and_moved (src dest : List DirFile) :
    Except SyncError (List DirFile × List (DirFile × DirFile)) :=
  match check_duplicate_names dest (namesOf dest) with
  | .error e => .error e
  | .ok _ => .ok (classify dest src)

/-- Python `find_deleted(src, dest)`: duplicate check on the source names, then the
destination entries whose name no source entry carries, in destination
order. -/
def find_deleted (src dest : List DirFile) : Except SyncError (List DirFile) :=
  match check_duplicate_names src (namesOf src) with
  | .error e => .error e
  | .ok _ => .ok (dest.filter (fun d => !(src.any (fun s => s.name == d.name))))

/-- The six classified lists returned by `get_changes`. -/
structure Changes where
  missing_dirs : List DirFile
  missing_files : List DirFile
  moved_dirs : List (DirFile × DirFile)
  moved_files : List (DirFile × DirFile)
  deleted_dirs : List DirFile
  deleted_files : List DirFile
  deriving DecidableEq

/-- Python `get_changes`, on already-scanned entry collections: both
`find_missing_and_moved` calls and both `find_deleted` calls run before any
result is returned; an exception anywhere aborts the whole computation. -/
def get_changes (src_dirs src_files dest_dirs dest_files : List DirFile) :
    Except SyncError Changes :=
  match find_missing_and_moved src_dirs dest_dirs with
  | .error e => .error e
  | .ok (missing_dirs, moved_dirs) =>
    match find_missing_and_moved src_files dest_files with
    | .error e => .error e
    | .ok (missing_files, moved_files) =>
      match find_deleted src_dirs dest_dirs with
      | .error e => .error e
      | .ok deleted_dirs =>
        match find_deleted src_files dest_files with
        | .error e => .error e
        | .ok deleted_files =>
          .ok ⟨missing_dirs, missing_files, moved_dirs, moved_files,
               deleted_dirs, deleted_files⟩

/-- Filesystem state: regular files (path with content, modelled as a `Nat`)
and directories. -/
structure FS where
  files : List (String × Nat)
  dirs : List String
  deriving DecidableEq

def FS.fileExists (fs : FS) (p : String) : Bool :=
  fs.files.any (fun q => q.1 == p)

def FS.dirExists (fs : FS) (p : String) : Bool :=
  fs.dirs.any (fun q => q == p)

/-- Model of `os.path.exists`. -/
def FS.pathExists (fs : FS) (p : String) : Bool :=
  fs.fileExists p || fs.dirExists p

/-- Content of the file at `p`, if any. -/
def FS.fileContent (fs : FS) (p : String) : Option Nat :=
  (fs.files.find? (fun q => q.1 == p)).map (fun q => q.2)

/-- Whether anything lives strictly below directory `p`; `rmdir` fails on
such a directory. -/
def FS.dirHasChild (fs : FS) (p : String) : Bool :=
  fs.files.any (fun q => q.1.startsWith (p ++ "/"))
    || fs.dirs.any (fun q => q.startsWith (p ++ "/"))

/-- The chain of joined path components: `["a", "a/b", "a/b/c"]` for
`a/b/c` split on `/`.  Used to model `os.makedirs` creating parents. -/
def joinChain : List String → List String
  | [] => []
  | c :: cs => c :: (joinChain cs).map (fun s => c ++ "/" ++ s)

/-- Model of `os.makedirs`: the target directory and its ancestors come into
existence. -/
def FS.makedirs (fs : FS) (p : String) : FS :=
  { fs with dirs := p :: ((joinChain (p.splitOn "/")).dropLast ++ fs.dirs) }

/-- The effect of `shutil.move` on one stored path: the source path itself
is renamed to the target, and anything below a moved directory follows. -/
def renamePath (s d p : String) : String :=
  if p = s then d
  else if p.startsWith (s ++ "/") then d ++ p.drop s.length
  else p

/-- Model of `shutil.move` (only reached behind existence guards). -/
def FS.moveEntry (fs : FS) (s d : String) : FS :=
  { files := fs.files.map (fun q => (renamePath s d q.1, q.2)),
    dirs := fs.dirs.map (renamePath s d) }

/-- Model of `shutil.copyfile` (only reached behind existence guards). -/
def FS.writeCopy (fs : FS) (s d : String) : FS :=
  { fs with files := (d, (fs.fileContent s).getD 0) :: fs.files }

/-- One reported line of output. -/
inductive Log where
  | dirCreated (p : String)
  | dirExistsErr (p : String)
  | copySrcMissing (s d : String)
  | copyDestExists (s d : String)
  | copied (s d : String)
  | moveSrcMissing (s d : String)
  | moveDestExists (s d : String)
  | movedEntry (s d : String)
  | dirDeleted (p : String)
  | dirMissingErr (p : String)
  | notDeletedTerminal (ps : List String)
  deriving DecidableEq

/-- Python `create_directory(dir_path)`. -/
def create_directory (fs : FS) (dir_path : String) : FS × List Log :=
  if !fs.pathExists dir_path then (fs.makedirs dir_path, [.dirCreated dir_path])
  else (fs, [.dirExistsErr dir_path])

/-- Python `copy_file(src_path, dest_path)`. -/
def copy_file (fs : FS) (src_path dest_path : String) : FS × List Log :=
  if !fs.pathExists src_path then (fs, [.copySrcMissing src_path dest_path])
  else if fs.pathExists dest_path then (fs, [.copyDestExists src_path dest_path])
  else (fs.writeCopy src_path dest_path, [.copied src_path dest_path])

/-- Python `move_file(src_path, dest_path)`. -/
def move_file (fs : FS) (src_path dest_path : String) : FS × List Log :=
  if !fs.pathExists src_path then (fs, [.moveSrcMissing src_path dest_path])
  else if fs.pathExists dest_path then (fs, [.moveDestExists src_path dest_path])
  else (fs.moveEntry src_path dest_path, [.movedEntry src_path dest_path])

/-- Python `delete_directory(dir_path)`: `True` on a missing path (with an error
report) and on a successful `rmdir`; `False` when `rmdir` raises `OSError`
(non-empty directory, or the path is not a directory). -/
def delete_directory (fs : FS) (dir_path : String) : Bool × FS × List Log :=
  if !fs.pathExists dir_path then (true, fs, [.dirMissingErr dir_path])
  else if fs.dirExists dir_path && !fs.dirHasChild dir_path then
    (true, { fs with dirs := fs.dirs.filter (fun q => q ≠ dir_path) },
     [.dirDeleted dir_path])
  else (false, fs, [])

/-- Python `create_required_directories(dest, missing, moved)`: create every
missing directory, then the first (source-side) component of every moved
pair, at its destination-relative path. -/
def create_required_directories (dest : String) (missing : List DirFile)
    (moved : List (DirFile × DirFile)) (fs : FS) : FS × List Log :=
  let step := fun (acc : FS × List Log) (p : String) =>
    match create_directory acc.1 p with
    | (fs', lg) => (fs', acc.2 ++ lg)
  (missing.map (fun e => pjoin dest e.str)
    ++ moved.map (fun pr => pjoin dest pr.1.str)).foldl step (fs, [])

/-- Python `copy_missing_files(src, dest, missing)`. -/
def copy_missing_files (src dest : String) (missing : List DirFile) (fs : FS) :
    FS × List Log :=
  match missing with
  | [] => (fs, [])
  | e :: rest =>
    match copy_file fs (pjoin src e.str) (pjoin dest e.str) with
    | (fs', lg) =>
      match copy_missing_files src dest rest fs' with
      | (fs'', lg') => (fs'', lg ++ lg')

/-- Python `move_files(base_path, moved)`: for each pair
`(new_dir_file, orig_dir_file)` the move goes from the path of the
second component to the path of the first component. -/
def move_files (base_path : String) (moved : List (DirFile × DirFile)) (fs : FS) :
    FS × List Log :=
  match moved with
  | [] => (fs, [])
  | pr :: rest =>
    match move_file fs (pjoin base_path pr.2.str) (pjoin base_path pr.1.str) with
    | (fs', lg) =>
      match move_files base_path rest fs' with
      | (fs'', lg') => (fs'', lg ++ lg')

/-- Python `delete_files(base_path, deleted, delete_move_dir_path)`: relocate each
deleted file into the quarantine directory, flattened to its base name. -/
def delete_files (base_path : String) (deleted : List DirFile)
    (delete_move_dir_path : String) (fs : FS) : FS × List Log :=
  match deleted with
  | [] => (fs, [])
  | e :: rest =>
    match move_file fs (pjoin base_path e.str) (pjoin delete_move_dir_path e.name) with
    | (fs', lg) =>
      match delete_files base_path rest delete_move_dir_path fs' with
      | (fs'', lg') => (fs'', lg ++ lg')

/-- One sweep over a list of directory paths: attempt each deletion in
order and collect the paths whose attempt returned `False`. -/
def attemptAll (fs : FS) : List String → FS × List Log × List String
  | [] => (fs, [], [])
  | p :: rest =>
    match delete_directory fs p with
    | (ok, fs', lg) =>
      match attemptAll fs' rest with
      | (fs'', lg', rem) => (fs'', lg ++ lg', if ok then rem else p :: rem)

/-- The `while` retry loop of `delete_dirs`, indexed by fuel: sweep the
pending set; stop reporting a terminal failure when a sweep removes
nothing, else continue on the strictly smaller remainder.  Fuel
`pending.length` is provably always sufficient. -/
def sweepLoopFuel : Nat → FS → List String → FS × List Log × List String
  | _, fs, [] => (fs, [], [])
  | 0, fs, pending => (fs, [], pending)
  | fuel + 1, fs, pending =>
    match attemptAll fs pending with
    | (fs', lg, remaining) =>
      if remaining.length = pending.length then
        (fs', lg ++ [Log.notDeletedTerminal remaining], remaining)
      else
        match sweepLoopFuel fuel fs' remaining with
        | (fs'', lg', rem') => (fs'', lg ++ lg', rem')

/-- The retry loop at its sufficient fuel. -/
def sweepLoop (fs : FS) (pending : List String) : FS × List Log × List String :=
  sweepLoopFuel pending.length fs pending

/-- Python `delete_dirs(base_path, moved, deleted)`: first pass over the deleted
directories in reverse order and then the second (original) component of
each moved pair in reverse order, then the retry loop over the failures. -/
def delete_dirs (fs : FS) (base_path : String)
    (moved : List (DirFile × DirFile)) (deleted : List DirFile) :
    FS × List Log × List String :=
  let paths := deleted.reverse.map (fun e => pjoin base_path e.str)
    ++ moved.reverse.map (fun pr => pjoin base_path pr.2.str)
  match attemptAll fs paths with
  | (fs1, lg1, pending) =>
    match sweepLoop fs1 pending with
    | (fs2, lg2, rem) => (fs2, lg1 ++ lg2, rem)

/-- The quarantine-directory logic at the top of the `sync` branch of
`main`: only when `--delete-dir` was not given is the default
`<dest>/deleted` used and, if absent, created. -/
def resolve_delete_dir (dest : String) (delete_dir : Option String) (fs : FS) :
    String × FS × List Log :=
  match delete_dir with
  | some p => (p, fs, [])
  | none =>
    let p := pjoin dest "deleted"
    if fs.pathExists p then (p, fs, [])
    else
      match create_directory fs p with
      | (fs', lg) => (p, fs', lg)

/-- Python `main(src, dest, delete_move_dir_path, sync)` on already-scanned entry
collections: compute all changes first (aborting on error with the
filesystem untouched), then, only if `sync` is set, run the five executor
phases in order. -/
def main (src_dirs src_files dest_dirs dest_files : List DirFile)
    (src dest : String) (delete_dir : Option String) (sync : Bool) (fs : FS) :
    FS × Except SyncError (List Log) :=
  match get_changes src_dirs src_files dest_dirs dest_files with
  | .error e => (fs, .error e)
  | .ok ch =>
    if sync then
      match resolve_delete_dir dest delete_dir fs with
      | (dmp, fs0, lg0) =>
        match create_required_directories dest ch.missing_dirs ch.moved_dirs fs0 with
        | (fs1, lg1) =>
          match copy_missing_files src dest ch.missing_files fs1 with
          | (fs2, lg2) =>
            match move_files dest ch.moved_files fs2 with
            | (fs3, lg3) =>
              match delete_files dest ch.deleted_files dmp fs3 with
              | (fs4, lg4) =>
                match delete_dirs fs4 dest ch.moved_dirs ch.deleted_dirs with
                | (fs5, lg5, _) =>
                  (fs5, .ok (lg0 ++ lg1 ++ lg2 ++ lg3 ++ lg4 ++ lg5))
    else (fs, .ok [])

/-- Spec-side definition, following the words of the spec for first-occurrence
reporting of a duplicate name: the first entry whose name occurs again
later, paired with the next entry carrying the same name.  To be compared
with the pair `check_duplicate_names` actually reports. -/
def specFirstDupPair : List DirFile → Option (DirFile × DirFile)
  | [] => none
  | e :: rest =>
    match rest.find? (fun x => x.name == e.name) with
    | some e2 => some (e, e2)
    | none => specFirstDupPair rest

/-- The move-detection example of the spec, source side: file `a/x`. -/
def exSrcAX : DirFile := ⟨"a", "x", ⟨"x", 1, some 5⟩⟩

/-- The move-detection example of the spec, destination side: file `b/x` with a
different timestamp. -/
def exDestBX : DirFile := ⟨"b", "x", ⟨"x", 2, some 5⟩⟩

/-- A destination tree with two directories both named `dup`. -/
def dupTree : List DirFile := [⟨"a", "dup", ⟨"dup", 3, none⟩⟩, ⟨"b", "dup", ⟨"dup", 4, none⟩⟩]

/-- A filesystem holding exactly one file, at `D/b/x`. -/
def fsOnlyBX : FS := ⟨[("D/b/x", 7)], []⟩

/-- A filesystem for the quarantine counterexample: destination root `D`
holding one file `g.txt`; the directory `Q` does not exist. -/
def fsQuarantine : FS := ⟨[("D/g.txt", 7)], ["D"]⟩

/-- Destination scan of `fsQuarantine` under root `D`: one file at the
top level. -/
def exGone : DirFile := ⟨"", "g.txt", ⟨"g.txt", 9, some 7⟩⟩

/-! ### First-occurrence deduplication -/

theorem mem_dedupFirstAux : ∀ (l seen : List String) (y : String),
    y ∈ dedupFirstAux seen l ↔ y ∈ l ∧ y ∉ seen
  | [], seen, y => by simp [dedupFirstAux]
  | x :: xs, seen, y => by
    by_cases hx : x ∈ seen
    · rw [dedupFirstAux, if_pos hx, mem_dedupFirstAux xs seen y]
      constructor
      · exact fun ⟨h1, h2⟩ => ⟨List.mem_cons_of_mem x h1, h2⟩
      · rintro ⟨h1, h2⟩
        rcases List.mem_cons.mp h1 with rfl | h
        · exact absurd hx h2
        · exact ⟨h, h2⟩
    · rw [dedupFirstAux, if_neg hx]
      simp only [List.mem_cons, mem_dedupFirstAux xs (x :: seen) y]
      constructor
      · rintro (rfl | ⟨h1, h2⟩)
        · exact ⟨Or.inl rfl, hx⟩
        · exact ⟨Or.inr h1, fun hs => h2 (Or.inr hs)⟩
      · rintro ⟨rfl | h1, h2⟩
        · exact Or.inl rfl
        · by_cases hyx : y = x
          · exact Or.inl hyx
          · exact Or.inr ⟨h1, fun hs => hs.elim hyx h2⟩

theorem length_dedupFirstAux_le : ∀ (l seen : List String),
    (dedupFirstAux seen l).length ≤ l.length
  | [], _ => Nat.le_refl _
  | x :: xs, seen => by
    by_cases hx : x ∈ seen
    · rw [dedupFirstAux, if_pos hx]
      exact Nat.le_trans (length_dedupFirstAux_le xs seen) (Nat.le_succ _)
    · rw [dedupFirstAux, if_neg hx, List.length_cons, List.length_cons]
      exact Nat.succ_le_succ (length_dedupFirstAux_le xs (x :: seen))

theorem nodup_of_length_dedupFirstAux : ∀ (l seen : List String),
    (dedupFirstAux seen l).length = l.length → l.Nodup ∧ ∀ y ∈ l, y ∉ seen
  | [], _, _ => ⟨List.nodup_nil, by simp⟩
  | x :: xs, seen, h => by
    by_cases hx : x ∈ seen
    · rw [dedupFirstAux, if_pos hx, List.length_cons] at h
      have := length_dedupFirstAux_le xs seen
      omega
    · rw [dedupFirstAux, if_neg hx, List.length_cons, List.length_cons] at h
      obtain ⟨h1, h2⟩ :=
        nodup_of_length_dedupFirstAux xs (x :: seen) (Nat.succ_injective h)
      refine ⟨List.nodup_cons.mpr ⟨fun hmem => ?_, h1⟩, ?_⟩
      · exact h2 x hmem (List.mem_cons_self x seen)
      · intro y hy
        rcases List.mem_cons.mp hy with rfl | hy'
        · exact hx
        · exact fun hs => h2 y hy' (List.mem_cons_of_mem x hs)

theorem dedupFirstAux_eq_self : ∀ (l seen : List String),
    l.Nodup → (∀ y ∈ l, y ∉ seen) → dedupFirstAux seen l = l
  | [], _, _, _ => rfl
  | x :: xs, seen, hnd, hdis => by
    have hx : x ∉ seen := hdis x (List.mem_cons_self x xs)
    rw [dedupFirstAux, if_neg hx]
    congr 1
    refine dedupFirstAux_eq_self xs (x :: seen) (List.nodup_cons.mp hnd).2 ?_
    intro y hy hs
    rcases List.mem_cons.mp hs with rfl | hs'
    · exact (List.nodup_cons.mp hnd).1 hy
    · exact hdis y (List.mem_cons_of_mem x hy) hs'

theorem dedupFirstAux_congr : ∀ (l seen₁ seen₂ : List String),
    (∀ y ∈ l, (y ∈ seen₁ ↔ y ∈ seen₂)) → dedupFirstAux seen₁ l = dedupFirstAux seen₂ l
  | [], _, _, _ => rfl
  | x :: xs, s1, s2, h => by
    by_cases hx : x ∈ s1
    · rw [dedupFirstAux, if_pos hx, dedupFirstAux,
        if_pos ((h x (List.mem_cons_self x xs)).mp hx)]
      exact dedupFirstAux_congr xs s1 s2 (fun y hy => h y (List.mem_cons_of_mem x hy))
    · rw [dedupFirstAux, if_neg hx, dedupFirstAux,
        if_neg (fun hc => hx ((h x (List.mem_cons_self x xs)).mpr hc))]
      congr 1
      refine dedupFirstAux_congr xs (x :: s1) (x :: s2) ?_
      intro y hy
      simp only [List.mem_cons]
      rw [h y (List.mem_cons_of_mem x hy)]

theorem namesOf_eq_of_nodup {l : List DirFile} (h : (l.map DirFile.name).Nodup) :
    namesOf l = l.map DirFile.name :=
  dedupFirstAux_eq_self _ [] h (by simp)

theorem nodup_of_namesOf_length {l : List DirFile} (h : (namesOf l).length = l.length) :
    (l.map DirFile.name).Nodup := by
  refine (nodup_of_length_dedupFirstAux (l.map DirFile.name) [] ?_).1
  rw [List.length_map]
  exact h

/-! ### The duplicate-name check -/

theorem check_duplicate_names_ok_iff (l : List DirFile) :
    check_duplicate_names l (namesOf l) = .ok () ↔ (l.map DirFile.name).Nodup := by
  constructor
  · intro h
    by_contra hnd
    have hne : (namesOf l).length ≠ l.length := fun heq => hnd (nodup_of_namesOf_length heq)
    rw [check_duplicate_names, if_pos hne] at h
    rcases hm : (namesOf l).findSome? (fun n => firstTwoWithName n l) with _ | ⟨a, b⟩ <;>
      rw [hm] at h <;> cases h
  · intro hnd
    have heq : (namesOf l).length = l.length := by
      rw [namesOf_eq_of_nodup hnd, List.length_map]
    rw [check_duplicate_names, if_neg (not_not_intro heq)]

theorem specFirstDupPair_eq_none_iff : ∀ (l : List DirFile),
    specFirstDupPair l = none ↔ (l.map DirFile.name).Nodup
  | [] => by simp [specFirstDupPair]
  | e :: rest => by
    rw [specFirstDupPair]
    rcases hf : rest.find? (fun x => x.name == e.name) with _ | e2
    all_goals simp only [hf]
    · rw [specFirstDupPair_eq_none_iff rest]
      simp only [List.map_cons, List.nodup_cons]
      constructor
      · intro h
        refine ⟨?_, h⟩
        rw [List.find?_eq_none] at hf
        simp only [List.mem_map]
        rintro ⟨x, hx, hxe⟩
        exact hf x hx (by simp [hxe])
      · exact fun h => h.2
    · constructor
      · intro h; cases h
      · intro h
        exfalso
        have h1 := List.find?_some hf
        have h2 := List.mem_of_find?_eq_some hf
        simp only [List.map_cons, List.nodup_cons] at h
        exact h.1 (List.mem_map.mpr ⟨e2, h2, by simpa using h1⟩)

theorem firstTwoWithName_head (e : DirFile) (rest : List DirFile) :
    firstTwoWithName e.name (e :: rest)
      = (rest.find? (fun x => x.name == e.name)).map (fun e2 => (e, e2)) := by
  rw [firstTwoWithName, List.filter_cons]
  simp only [beq_self_eq_true, if_true]
  rcases hf : rest.find? (fun x => x.name == e.name) with _ | e2
  · have hnil : rest.filter (fun x => x.name == e.name) = [] := by
      rw [← List.head?_eq_none_iff, List.filter_head?, hf]
    rw [hnil, hf]
    rfl
  · have hh : (rest.filter (fun x => x.name == e.name)).head? = some e2 := by
      rw [List.filter_head?, hf]
    rcases hfl : rest.filter (fun x => x.name == e.name) with _ | ⟨c, t⟩
    · rw [hfl] at hh; cases hh
    · rw [hfl] at hh
      simp only [List.head?_cons, Option.some.injEq] at hh
      subst hh
      rw [hfl, hf]
      rfl

theorem findSome?_congr_mem {α β : Type} (l : List α) (f g : α → Option β)
    (h : ∀ a ∈ l, f a = g a) : l.findSome? f = l.findSome? g := by
  induction l with
  | nil => rfl
  | cons x xs ih =>
    rw [List.findSome?_cons, List.findSome?_cons, h x (List.mem_cons_self x xs)]
    rcases g x with _ | b
    · exact ih (fun a ha => h a (List.mem_cons_of_mem x ha))
    · rfl

theorem findSome?_namesOf_eq_spec : ∀ (l : List DirFile),
    (namesOf l).findSome? (fun n => firstTwoWithName n l) = specFirstDupPair l
  | [] => rfl
  | e :: rest => by
    have hnames : namesOf (e :: rest)
        = e.name :: dedupFirstAux [e.name] (rest.map DirFile.name) := by
      rw [namesOf, List.map_cons, dedupFirst, dedupFirstAux, if_neg (List.not_mem_nil _)]
    rw [hnames]
    simp only [List.findSome?_cons]
    rw [firstTwoWithName_head]
    rcases hf : rest.find? (fun x => x.name == e.name) with _ | e2
    · rw [hf]
      simp only [Option.map_none']
      have hnot : e.name ∉ rest.map DirFile.name := by
        rw [List.find?_eq_none] at hf
        simp only [List.mem_map]
        rintro ⟨x, hx, hxe⟩
        exact hf x hx (by simp [hxe])
      have hseen : dedupFirstAux [e.name] (rest.map DirFile.name) = namesOf rest := by
        show dedupFirstAux [e.name] (rest.map DirFile.name)
          = dedupFirstAux [] (rest.map DirFile.name)
        refine dedupFirstAux_congr _ _ _ ?_
        intro y hy
        simp only [List.mem_singleton, List.not_mem_nil, iff_false]
        exact fun h => hnot (h ▸ hy)
      rw [hseen]
      have hcongr : (namesOf rest).findSome?
            (fun n => firstTwoWithName n (e :: rest))
          = (namesOf rest).findSome?
            (fun n => firstTwoWithName n rest) := by
        refine findSome?_congr_mem _ _ _ ?_
        intro n hn
        have hn' : n ∈ rest.map DirFile.name :=
          ((mem_dedupFirstAux (rest.map DirFile.name) [] n).mp hn).1
        have hne : (e.name == n) = false := by
          refine beq_eq_false_iff_ne.mpr ?_
          exact fun h => hnot (h ▸ hn')
        rw [firstTwoWithName, firstTwoWithName, List.filter_cons, hne]
        simp only [Bool.false_eq_true, if_false]
      rw [hcongr, findSome?_namesOf_eq_spec rest, specFirstDupPair, hf]
    · rw [hf]
      simp only [Option.map_some']
      rw [specFirstDupPair, hf]

theorem check_error_of_spec_pair (l : List DirFile) (a b : DirFile)
    (h : specFirstDupPair l = some (a, b)) :
    check_duplicate_names l (namesOf l) = .error (.dupName a b) := by
  have hnd : ¬ (l.map DirFile.name).Nodup := by
    intro hn
    rw [← specFirstDupPair_eq_none_iff, h] at hn
    cases hn
  have hlen : (namesOf l).length ≠ l.length := by
    intro he
    exact hnd (nodup_of_namesOf_length he)
  rw [check_duplicate_names, if_pos hlen, findSome?_namesOf_eq_spec, h]

/-! ### The classification loop -/

theorem nameLookup_eq_none_iff (dest : List DirFile) (n : String) :
    nameLookup dest n = none ↔ ∀ d ∈ dest, d.name ≠ n := by
  rw [nameLookup, List.find?_eq_none]
  constructor
  · intro h d hd hb
    exact h d (List.mem_reverse.mpr hd) (by simp [hb])
  · intro h d hd hb
    exact h d (List.mem_reverse.mp hd) (by simpa using hb)

theorem classify_eq (dest : List DirFile) : ∀ (src : List DirFile),
    classify dest src
      = (src.filter (fun e => !(dest.any (fun d => d.name == e.name))),
         src.filterMap (fun e =>
           if locIn dest e then none
           else (nameLookup dest e.name).map (fun d => (e, d))))
  | [] => rfl
  | e :: rest => by
    rw [classify, classify_eq dest rest]
    by_cases hloc : locIn dest e = true
    · have hname : dest.any (fun d => d.name == e.name) = true := by
        rw [locIn, List.any_eq_true] at hloc
        obtain ⟨d, hd, hdd⟩ := hloc
        rw [Bool.and_eq_true] at hdd
        exact List.any_eq_true.mpr ⟨d, hd, hdd.2⟩
      rw [List.filter_cons, List.filterMap_cons, hname]
      simp [hloc]
    · rcases hl : nameLookup dest e.name with _ | d
      · have hname : dest.any (fun d => d.name == e.name) = false := by
          rw [List.any_eq_false]
          intro d hd hb
          exact (nameLookup_eq_none_iff dest e.name).mp hl d hd (by simpa using hb)
        rw [List.filter_cons, List.filterMap_cons, hname, if_neg hloc]
        simp [hloc, hl]
      · have hname : dest.any (fun d => d.name == e.name) = true := by
          have hmem := List.mem_of_find?_eq_some hl
          have hpd := List.find?_some hl
          exact List.any_eq_true.mpr ⟨d, List.mem_reverse.mp hmem, hpd⟩
        rw [List.filter_cons, List.filterMap_cons, hname, if_neg hloc]
        simp [hloc, hl]

theorem mem_classify_snd : ∀ (src dest : List DirFile) (pr : DirFile × DirFile),
    pr ∈ (classify dest src).2 →
      pr.1 ∈ src ∧ nameLookup dest pr.1.name = some pr.2
  | [], _, _, h => absurd h (List.not_mem_nil _)
  | e :: rest, dest, pr, h => by
    rw [classify] at h
    by_cases hloc : locIn dest e = true
    · rw [if_pos hloc] at h
      obtain ⟨h1, h2⟩ := mem_classify_snd rest dest pr h
      exact ⟨List.mem_cons_of_mem e h1, h2⟩
    · rw [if_neg hloc] at h
      rcases hl : nameLookup dest e.name with _ | d
      · rw [hl] at h
        obtain ⟨h1, h2⟩ := mem_classify_snd rest dest pr h
        exact ⟨List.mem_cons_of_mem e h1, h2⟩
      · rw [hl] at h
        rcases List.mem_cons.mp h with rfl | h'
        · exact ⟨List.mem_cons_self e rest, hl⟩
        · obtain ⟨h1, h2⟩ := mem_classify_snd rest dest pr h'
          exact ⟨List.mem_cons_of_mem e h1, h2⟩

theorem nameLookup_eq_find?_of_nodup :
    ∀ (dest : List DirFile), (dest.map DirFile.name).Nodup →
      ∀ n, nameLookup dest n = dest.find? (fun d => d.name == n)
  | [], _, n => rfl
  | e :: rest, hnd, n => by
    rw [List.map_cons, List.nodup_cons] at hnd
    rw [nameLookup, List.reverse_cons, List.find?_append]
    by_cases hen : (e.name == n) = true
    · have hnone : rest.find? (fun d => d.name == n) = none := by
        rw [List.find?_eq_none]
        intro x hx hb
        have h1 : x.name = n := by simpa using hb
        have h2 : e.name = n := by simpa using hen
        exact hnd.1 (List.mem_map.mpr ⟨x, hx, by rw [h1, h2]⟩)
      have hrev : rest.reverse.find? (fun d => d.name == n) = none := by
        rw [List.find?_eq_none] at hnone ⊢
        intro x hx
        exact hnone x (List.mem_reverse.mp hx)
      rw [hrev]
      simp [List.find?, hen]
    · have hre : rest.reverse.find? (fun d => d.name == n)
          = rest.find? (fun d => d.name == n) := by
        have hrec := nameLookup_eq_find?_of_nodup rest hnd.2 n
        rw [nameLookup] at hrec
        exact hrec
      rw [hre]
      simp [List.find?, hen]

theorem find_missing_and_moved_ok (src dest : List DirFile)
    (h : (dest.map DirFile.name).Nodup) :
    find_missing_and_moved src dest = .ok (classify dest src) := by
  rw [find_missing_and_moved, (check_duplicate_names_ok_iff dest).mpr h]

theorem find_deleted_ok (src dest : List DirFile)
    (h : (src.map DirFile.name).Nodup) :
    find_deleted src dest
      = .ok (dest.filter (fun d => !(src.any (fun s => s.name == d.name)))) := by
  rw [find_deleted, (check_duplicate_names_ok_iff src).mpr h]

theorem locIn_self {T : List DirFile} {e : DirFile} (he : e ∈ T) : locIn T e = true := by
  rw [locIn, List.any_eq_true]
  exact ⟨e, he, by simp⟩

theorem classify_self_sub : ∀ (sub T : List DirFile), (∀ e ∈ sub, e ∈ T) →
    classify T sub = ([], [])
  | [], _, _ => rfl
  | e :: rest, T, h => by
    rw [classify, if_pos (locIn_self (h e (List.mem_cons_self e rest)))]
    exact classify_self_sub rest T (fun x hx => h x (List.mem_cons_of_mem e hx))

theorem filter_self_names (T : List DirFile) :
    T.filter (fun d => !(T.any (fun s => s.name == d.name))) = [] := by
  refine List.filter_eq_nil_iff.mpr ?_
  intro d hd
  have hany : T.any (fun s => s.name == d.name) = true :=
    List.any_eq_true.mpr ⟨d, hd, by simp⟩
  simp [hany]

/-! ### Claim theorems about change computation -/

/-- C4: over a destination collection with no duplicate names,
`find_missing_and_moved` classifies each source entry in source order:
an entry whose `(relative_path, name)` is in the destination set is
skipped, otherwise an entry whose name exists in the destination name map
is paired as moved with that destination entry, and otherwise it is
missing; in particular the `a/x` versus `b/x` example of the spec yields
exactly the moved pair `(a/x, b/x)` with nothing missing and nothing
deleted. -/
theorem classification_spec :
    (∀ (src dest : List DirFile), (dest.map DirFile.name).Nodup →
      find_missing_and_moved src dest
        = .ok (src.filter (fun e => !(dest.any (fun d => d.name == e.name))),
               src.filterMap (fun e =>
                 if locIn dest e then none
                 else (dest.find? (fun d => d.name == e.name)).map (fun d => (e, d))))) ∧
    (find_missing_and_moved [exSrcAX] [exDestBX] = .ok ([], [(exSrcAX, exDestBX)]) ∧
     find_deleted [exSrcAX] [exDestBX] = .ok []) := by
  constructor
  · intro src dest h
    rw [find_missing_and_moved_ok src dest h, classify_eq]
    have hfm : ∀ e ∈ src,
        (if locIn dest e then none
          else (nameLookup dest e.name).map (fun d => (e, d)))
        = (if locIn dest e then none
          else (dest.find? (fun d => d.name == e.name)).map (fun d => (e, d))) := by
      intro e _
      rw [nameLookup_eq_find?_of_nodup dest h]
    rw [List.filterMap_congr hfm]
  · exact ⟨by decide, by decide⟩

/-- Witness for `classification_spec` at the move-detection example
of the spec. -/
theorem classification_spec_witness :
    ([exDestBX].map DirFile.name).Nodup ∧
    find_missing_and_moved [exSrcAX] [exDestBX]
      = .ok ([exSrcAX].filter (fun e => !([exDestBX].any (fun d => d.name == e.name))),
             [exSrcAX].filterMap (fun e =>
               if locIn [exDestBX] e then none
               else ([exDestBX].find? (fun d => d.name == e.name)).map (fun d => (e, d)))) :=
  ⟨by decide, classification_spec.1 [exSrcAX] [exDestBX] (by decide)⟩

/-- C5: over a source collection with no duplicate names, `find_deleted`
returns exactly the destination entries whose name no source entry
carries, preserving the destination traversal order. -/
theorem deleted_spec (src dest : List DirFile)
    (h : (src.map DirFile.name).Nodup) :
    find_deleted src dest
      = .ok (dest.filter (fun d => !(src.any (fun s => s.name == d.name)))) :=
  find_deleted_ok src dest h

/-- Witness for `deleted_spec`. -/
theorem deleted_spec_witness :
    ([exSrcAX].map DirFile.name).Nodup ∧
    find_deleted [exSrcAX] [exDestBX]
      = .ok ([exDestBX].filter (fun d => !([exSrcAX].any (fun s => s.name == d.name)))) :=
  ⟨by decide, deleted_spec [exSrcAX] [exDestBX] (by decide)⟩

/-- C6: the duplicate-name check (as invoked on the destination name map
in `find_missing_and_moved` and, mirrored, on the source name set in
`find_deleted`, both modelled in first-occurrence iteration order)
succeeds exactly when no two entries of the collection share a name, and
on failure reports the first two entries of the first-occurring
duplicated name, as captured by `specFirstDupPair`. -/
theorem dup_check_spec (l src dest : List DirFile) :
    (check_duplicate_names l (namesOf l) = .ok () ↔ (l.map DirFile.name).Nodup) ∧
    (specFirstDupPair l = none ↔ (l.map DirFile.name).Nodup) ∧
    (∀ a b, specFirstDupPair l = some (a, b) →
      check_duplicate_names l (namesOf l) = .error (.dupName a b)) ∧
    (∀ a b, specFirstDupPair dest = some (a, b) →
      find_missing_and_moved src dest = .error (.dupName a b)) ∧
    (∀ a b, specFirstDupPair src = some (a, b) →
      find_deleted src dest = .error (.dupName a b)) := by
  refine ⟨check_duplicate_names_ok_iff l, specFirstDupPair_eq_none_iff l,
    check_error_of_spec_pair l, ?_, ?_⟩
  · intro a b h
    rw [find_missing_and_moved, check_error_of_spec_pair dest a b h]
  · intro a b h
    rw [find_deleted, check_error_of_spec_pair src a b h]

/-- Witness for `dup_check_spec` on a collection with two entries named
`dup`. -/
theorem dup_check_spec_witness :
    specFirstDupPair dupTree
        = some (⟨"a", "dup", ⟨"dup", 3, none⟩⟩, ⟨"b", "dup", ⟨"dup", 4, none⟩⟩) ∧
    check_duplicate_names dupTree (namesOf dupTree)
        = .error (.dupName ⟨"a", "dup", ⟨"dup", 3, none⟩⟩ ⟨"b", "dup", ⟨"dup", 4, none⟩⟩) :=
  ⟨by decide, (dup_check_spec dupTree [] []).2.2.1 _ _ (by decide)⟩

/-- C3 counterexample: the tree holding `a/dup` and `b/dup` compared
against itself does not yield empty change sets; change computation
aborts with a duplicate-name error instead. -/
theorem self_compare_dup_cex :
    ¬ (get_changes dupTree [] dupTree [] = .ok ⟨[], [], [], [], [], []⟩) := by
  decide

/-- C3 amended: comparing a snapshot against itself yields empty missing,
moved and deleted lists for both kinds, provided the directory names and
the file names of the snapshot are each duplicate-free. -/
theorem self_compare_empty_diff (dirs files : List DirFile)
    (hd : (dirs.map DirFile.name).Nodup) (hf : (files.map DirFile.name).Nodup) :
    get_changes dirs files dirs files = .ok ⟨[], [], [], [], [], []⟩ := by
  have h1 : find_missing_and_moved dirs dirs = .ok ([], []) := by
    rw [find_missing_and_moved_ok dirs dirs hd,
      classify_self_sub dirs dirs (fun _ hx => hx)]
  have h2 : find_missing_and_moved files files = .ok ([], []) := by
    rw [find_missing_and_moved_ok files files hf,
      classify_self_sub files files (fun _ hx => hx)]
  have h3 : find_deleted dirs dirs = .ok [] := by
    rw [find_deleted_ok dirs dirs hd, filter_self_names]
  have h4 : find_deleted files files = .ok [] := by
    rw [find_deleted_ok files files hf, filter_self_names]
  simp [get_changes, h1, h2, h3, h4]

/-- Witness for `self_compare_empty_diff`. -/
theorem self_compare_empty_diff_witness :
    ([exDestBX].map DirFile.name).Nodup ∧ ([exSrcAX].map DirFile.name).Nodup ∧
    get_changes [exDestBX] [exSrcAX] [exDestBX] [exSrcAX]
      = .ok ⟨[], [], [], [], [], []⟩ :=
  ⟨by decide, by decide,
    self_compare_empty_diff [exDestBX] [exSrcAX] (by decide) (by decide)⟩

/-- C2: an error during change computation (all four classification calls
run up front) aborts the run before the executor performs any mutation:
`main` returns the filesystem unchanged together with the error. -/
theorem dup_error_aborts_before_mutation
    (src_dirs src_files dest_dirs dest_files : List DirFile)
    (src dest : String) (delete_dir : Option String) (sync : Bool) (fs : FS)
    (e : SyncError)
    (h : get_changes src_dirs src_files dest_dirs dest_files = .error e) :
    main src_dirs src_files dest_dirs dest_files src dest delete_dir sync fs
      = (fs, .error e) := by
  rw [main, h]

/-- Witness for `dup_error_aborts_before_mutation`: a duplicate-name
destination aborts a sync run with the filesystem untouched. -/
theorem dup_error_aborts_before_mutation_witness :
    get_changes dupTree [] dupTree []
        = .error (.dupName ⟨"a", "dup", ⟨"dup", 3, none⟩⟩ ⟨"b", "dup", ⟨"dup", 4, none⟩⟩) ∧
    main dupTree [] dupTree [] "S" "D" none true fsOnlyBX
        = (fsOnlyBX,
           .error (.dupName ⟨"a", "dup", ⟨"dup", 3, none⟩⟩ ⟨"b", "dup", ⟨"dup", 4, none⟩⟩)) :=
  ⟨by decide,
    dup_error_aborts_before_mutation dupTree [] dupTree [] "S" "D" none true fsOnlyBX
      _ (by decide)⟩

/-- C1 counterexample: for the example of the spec, classification returns the
moved pair `(a/x, b/x)` with the source-side entry first, and the
move step of the executor then moves the file from the destination-side path
`D/b/x` to the source-side path `D/a/x` — the opposite of moving from the
path of the source-side entry to the path of the destination-side entry. -/
theorem moved_pair_direction_cex :
    find_missing_and_moved [exSrcAX] [exDestBX] = .ok ([], [(exSrcAX, exDestBX)]) ∧
    fsOnlyBX.fileExists "D/b/x" = true ∧ fsOnlyBX.fileExists "D/a/x" = false ∧
    (move_files "D" [(exSrcAX, exDestBX)] fsOnlyBX).1.fileExists "D/a/x" = true ∧
    (move_files "D" [(exSrcAX, exDestBX)] fsOnlyBX).1.fileExists "D/b/x" = false ∧
    (move_files "D" [(exSrcAX, exDestBX)] fsOnlyBX).2
      = [Log.movedEntry "D/b/x" "D/a/x"] := by
  decide

/-- C1 amended: in every moved pair returned by `find_missing_and_moved`
over a duplicate-free destination, the first component is the source-side
entry and the second is the matched destination-side entry of the same
name; the move step of the executor moves from the destination-relative
path of the destination-side entry (the original location) to the
destination-relative path of the source-side entry (the new location). -/
theorem moved_pair_direction (src dest : List DirFile)
    (hnd : (dest.map DirFile.name).Nodup)
    (res : List DirFile × List (DirFile × DirFile))
    (hres : find_missing_and_moved src dest = .ok res) :
    ∀ pr ∈ res.2, pr.1 ∈ src ∧ pr.2 ∈ dest ∧ pr.2.name = pr.1.name ∧
      ∀ (base : String) (fs : FS),
        move_files base [pr] fs
          = move_file fs (pjoin base pr.2.str) (pjoin base pr.1.str) := by
  have hcl : classify dest src = res := by
    have h := (find_missing_and_moved_ok src dest hnd).symm.trans hres
    injection h
  intro pr hpr
  rw [← hcl] at hpr
  obtain ⟨h1, h2⟩ := mem_classify_snd src dest pr hpr
  refine ⟨h1, List.mem_reverse.mp (List.mem_of_find?_eq_some h2), ?_, ?_⟩
  · have := List.find?_some h2
    simpa using this
  · intro base fs
    rw [move_files]
    rcases hm : move_file fs (pjoin base pr.2.str) (pjoin base pr.1.str) with ⟨fs', lg⟩
    simp [hm, move_files]

/-- Witness for `moved_pair_direction` at the example pair of the spec. -/
theorem moved_pair_direction_witness :
    ([exDestBX].map DirFile.name).Nodup ∧
    (exSrcAX ∈ ([exSrcAX] : List DirFile) ∧ exDestBX ∈ ([exDestBX] : List DirFile) ∧
      exDestBX.name = exSrcAX.name ∧
      move_files "D" [(exSrcAX, exDestBX)] fsOnlyBX
        = move_file fsOnlyBX (pjoin "D" exDestBX.str) (pjoin "D" exSrcAX.str)) :=
  ⟨by decide, by
    have h := moved_pair_direction [exSrcAX] [exDestBX] (by decide)
      ([], [(exSrcAX, exDestBX)]) (by decide) (exSrcAX, exDestBX) (by decide)
    exact ⟨h.1, h.2.1, h.2.2.1, h.2.2.2 "D" fsOnlyBX⟩⟩

/-! ### Executor: quarantine directory and copy phase -/

theorem pathExists_makedirs (fs : FS) (p : String) :
    (fs.makedirs p).pathExists p = true := by
  rw [FS.makedirs, FS.pathExists, FS.dirExists]
  simp

theorem create_directory_exists (fs : FS) (p : String) :
    ((create_directory fs p).1).pathExists p = true := by
  rw [create_directory]
  cases hb : fs.pathExists p
  · simpa [hb] using pathExists_makedirs fs p
  · simp [hb]

/-- C9 counterexample: a sync run given an explicit quarantine path `Q`
that does not exist relocates the deleted file to `Q/g.txt` without ever
creating the quarantine directory `Q` itself. -/
theorem quarantine_not_created_cex :
    fsQuarantine.pathExists "Q" = false ∧
    get_changes [] [] [] [exGone] = .ok ⟨[], [], [], [], [], [exGone]⟩ ∧
    (main [] [] [] [exGone] "S" "D" (some "Q") true fsQuarantine).1.fileExists "Q/g.txt"
      = true ∧
    (main [] [] [] [exGone] "S" "D" (some "Q") true fsQuarantine).1.pathExists "Q"
      = false := by
  decide

/-- C9 amended: only when `--delete-dir` is not given is the quarantine
directory, defaulting to `<dest>/deleted`, created if absent before the
executor phases run; an explicitly given `--delete-dir` path is used
as-is and is never created. -/
theorem quarantine_default_created (dest : String) (fs : FS) :
    (resolve_delete_dir dest none fs).2.1.pathExists (pjoin dest "deleted") = true ∧
    ∀ p, resolve_delete_dir dest (some p) fs = (p, fs, []) := by
  refine ⟨?_, fun p => rfl⟩
  cases hb : fs.pathExists (pjoin dest "deleted")
  · rcases hc : create_directory fs (pjoin dest "deleted") with ⟨fs', lg⟩
    have h2 := create_directory_exists fs (pjoin dest "deleted")
    rw [hc] at h2
    simpa [resolve_delete_dir, hb, hc] using h2
  · simp [resolve_delete_dir, hb]

theorem copy_file_preserves (fs : FS) (s d p : String) (hp : fs.pathExists p = true) :
    (copy_file fs s d).1.fileContent p = fs.fileContent p ∧
    (copy_file fs s d).1.pathExists p = true := by
  rw [copy_file]
  cases hs : fs.pathExists s
  · simp [hs, hp]
  · cases hd : fs.pathExists d
    · have hpd : (d == p) = false := by
        refine beq_eq_false_iff_ne.mpr ?_
        intro h
        rw [h] at hd
        rw [hd] at hp
        cases hp
      simp only [hs, hd, Bool.not_true, Bool.false_eq_true, if_false]
      constructor
      · show ((fs.writeCopy s d).fileContent p) = fs.fileContent p
        simp only [FS.writeCopy, FS.fileContent, List.find?_cons, hpd]
      · show ((fs.writeCopy s d).pathExists p) = true
        simp only [FS.pathExists, FS.fileExists, FS.dirExists] at hp
        simp only [FS.writeCopy, FS.pathExists, FS.fileExists, FS.dirExists,
          List.any_cons, hpd, Bool.false_or]
        exact hp
    · simp [hs, hd, hp]

theorem copy_missing_files_preserves :
    ∀ (missing : List DirFile) (src dest : String) (fs : FS) (p : String),
      fs.pathExists p = true →
      (copy_missing_files src dest missing fs).1.fileContent p = fs.fileContent p ∧
      (copy_missing_files src dest missing fs).1.pathExists p = true
  | [], _, _, _, _, hp => ⟨rfl, hp⟩
  | e :: rest, src, dest, fs, p, hp => by
    rw [copy_missing_files]
    rcases hc : copy_file fs (pjoin src e.str) (pjoin dest e.str) with ⟨fs', lg⟩
    have hstep := copy_file_preserves fs (pjoin src e.str) (pjoin dest e.str) p hp
    rw [hc] at hstep
    rcases hr : copy_missing_files src dest rest fs' with ⟨fs'', lg'⟩
    have IH := copy_missing_files_preserves rest src dest fs' p hstep.2
    rw [hr] at IH
    simp only [hc, hr]
    exact ⟨IH.1.trans hstep.1, IH.2⟩

/-- C8: if the destination path of a copy already exists, `copy_file`
leaves the filesystem untouched and only reports; a copy is written
exactly when the source path exists and the destination path does not;
and the whole copy phase never changes the content of any pre-existing
path. -/
theorem copy_non_overwrite (fs : FS) (s d : String) :
    (fs.pathExists d = true → (copy_file fs s d).1 = fs ∧
      ((copy_file fs s d).2 = [Log.copySrcMissing s d] ∨
       (copy_file fs s d).2 = [Log.copyDestExists s d])) ∧
    ((copy_file fs s d).2 = [Log.copied s d] ↔
      (fs.pathExists s = true ∧ fs.pathExists d = false)) ∧
    ((copy_file fs s d).1 ≠ fs →
      fs.pathExists s = true ∧ fs.pathExists d = false) ∧
    (∀ (src dest : String) (missing : List DirFile) (p : String),
      fs.pathExists p = true →
        (copy_missing_files src dest missing fs).1.fileContent p
          = fs.fileContent p) := by
  refine ⟨?_, ?_, ?_, ?_⟩
  · intro hd
    rw [copy_file]
    cases hs : fs.pathExists s
    · simp [hs]
    · simp [hs, hd]
  · rw [copy_file]
    cases hs : fs.pathExists s
    · simp [hs]
    · cases hd : fs.pathExists d
      · simp [hs, hd]
      · simp [hs, hd]
  · intro hne
    rw [copy_file] at hne
    cases hs : fs.pathExists s
    · rw [hs] at hne
      simp at hne
    · cases hd : fs.pathExists d
      · exact ⟨rfl, rfl⟩
      · rw [hs, hd] at hne
        simp at hne
  · intro src dest missing p hp
    exact (copy_missing_files_preserves missing src dest fs p hp).1

/-- Witness for `copy_non_overwrite`: copying onto the existing `D/b/x`
changes nothing and is only reported. -/
theorem copy_non_overwrite_witness :
    fsOnlyBX.pathExists "D/b/x" = true ∧
    (copy_file fsOnlyBX "S/x" "D/b/x").1 = fsOnlyBX ∧
    ((copy_file fsOnlyBX "S/x" "D/b/x").2 = [Log.copySrcMissing "S/x" "D/b/x"] ∨
     (copy_file fsOnlyBX "S/x" "D/b/x").2 = [Log.copyDestExists "S/x" "D/b/x"]) :=
  ⟨by decide, ((copy_non_overwrite fsOnlyBX "S/x" "D/b/x").1 (by decide)).1,
    ((copy_non_overwrite fsOnlyBX "S/x" "D/b/x").1 (by decide)).2⟩

/-! ### Executor: the directory-deletion phase -/

theorem sweepLoopFuel_nil (fuel : Nat) (fs : FS) :
    sweepLoopFuel fuel fs [] = (fs, [], []) := by
  cases fuel <;> rfl

theorem attemptAll_len_le : ∀ (l : List String) (fs : FS),
    ((attemptAll fs l).2.2).length ≤ l.length
  | [], _ => Nat.le_refl 0
  | p :: rest, fs => by
    rw [attemptAll]
    rcases hd : delete_directory fs p with ⟨ok, fs', lg⟩
    rcases ha : attemptAll fs' rest with ⟨fs'', lg', rem⟩
    have hle := attemptAll_len_le rest fs'
    simp only [ha] at hle
    simp only [hd, ha]
    cases ok
    · simpa using Nat.succ_le_succ hle
    · simpa using Nat.le_trans hle (Nat.le_succ _)

theorem delete_directory_of_fail (fs : FS) (p : String)
    (h : (delete_directory fs p).1 = false) :
    delete_directory fs p = (false, fs, []) := by
  rw [delete_directory] at h ⊢
  cases he : fs.pathExists p
  · rw [he] at h
    simp at h
  · rw [he] at h
    cases hd : (fs.dirExists p && !fs.dirHasChild p)
    · simp [he, hd]
    · rw [hd] at h
      simp at h

theorem attemptAll_all_fail : ∀ (l : List String) (fs : FS),
    ((attemptAll fs l).2.2).length = l.length →
    attemptAll fs l = (fs, [], l)
  | [], _, _ => rfl
  | p :: rest, fs, h => by
    rw [attemptAll] at h ⊢
    rcases hd : delete_directory fs p with ⟨ok, fs', lg⟩
    rcases ha : attemptAll fs' rest with ⟨fs'', lg', rem⟩
    simp only [hd, ha] at h ⊢
    cases ok
    · simp only [List.length_cons, Bool.false_eq_true, if_false] at h ⊢
      have hrec := attemptAll_all_fail rest fs' (by
        simp only [ha]
        exact Nat.succ_injective h)
      simp only [ha] at hrec
      have hdd := delete_directory_of_fail fs p (by rw [hd])
      rw [hd] at hdd
      have h1 : fs' = fs ∧ lg = [] := by
        simp only [Prod.mk.injEq] at hdd
        exact ⟨hdd.2.1, hdd.2.2⟩
      have h2 : fs'' = fs' ∧ lg' = [] ∧ rem = rest := by
        simp only [Prod.mk.injEq] at hrec
        exact ⟨hrec.1, hrec.2.1, hrec.2.2⟩
      simp [h1.1, h1.2, h2.1, h2.2.1, h2.2.2]
    · exfalso
      have hle := attemptAll_len_le rest fs'
      simp only [ha] at hle
      simp only [List.length_cons, if_true] at h
      omega

theorem sweepLoopFuel_spec : ∀ (fuel : Nat) (fs : FS) (pending : List String),
    pending.length ≤ fuel →
    attemptAll (sweepLoopFuel fuel fs pending).1 (sweepLoopFuel fuel fs pending).2.2
      = ((sweepLoopFuel fuel fs pending).1, [], (sweepLoopFuel fuel fs pending).2.2) ∧
    ((sweepLoopFuel fuel fs pending).2.2 = [] ∨
      Log.notDeletedTerminal (sweepLoopFuel fuel fs pending).2.2
        ∈ (sweepLoopFuel fuel fs pending).2.1)
  | fuel, fs, [], _ => by
    rw [sweepLoopFuel_nil]
    exact ⟨rfl, Or.inl rfl⟩
  | 0, fs, p :: ps, hf => by
    simp at hf
  | fuel + 1, fs, p :: ps, hf => by
    rw [sweepLoopFuel]
    rcases hA : attemptAll fs (p :: ps) with ⟨fs', lg, remaining⟩
    simp only [hA]
    by_cases hlen : remaining.length = (p :: ps).length
    · rw [if_pos hlen]
      have hfail := attemptAll_all_fail (p :: ps) fs (by simp only [hA]; exact hlen)
      rw [hA] at hfail
      have h1 : fs' = fs ∧ lg = [] ∧ remaining = p :: ps := by
        simp only [Prod.mk.injEq] at hfail
        exact ⟨hfail.1, hfail.2.1, hfail.2.2⟩
      obtain ⟨e1, e2, e3⟩ := h1
      subst e1
      subst e2
      subst e3
      refine ⟨?_, Or.inr (by simp)⟩
      rw [hA]
    · rw [if_neg hlen]
      rcases hS : sweepLoopFuel fuel fs' remaining with ⟨fs'', lg', rem'⟩
      have hle : remaining.length ≤ fuel := by
        have h1 := attemptAll_len_le (p :: ps) fs
        simp only [hA] at h1
        simp only [List.length_cons] at h1 hlen hf
        omega
      have IH := sweepLoopFuel_spec fuel fs' remaining hle
      rw [hS] at IH
      simp only [hS]
      refine ⟨IH.1, ?_⟩
      rcases IH.2 with h | h
      · exact Or.inl h
      · exact Or.inr (List.mem_append_right lg h)
    all_goals exact fun h => List.noConfusion h

theorem sweepLoopFuel_irrel : ∀ (f g : Nat) (fs : FS) (pending : List String),
    pending.length ≤ f → pending.length ≤ g →
    sweepLoopFuel f fs pending = sweepLoopFuel g fs pending
  | _, _, fs, [], _, _ => by rw [sweepLoopFuel_nil, sweepLoopFuel_nil]
  | 0, _, fs, p :: ps, hf, _ => by simp at hf
  | _ + 1, 0, fs, p :: ps, _, hg => by simp at hg
  | f + 1, g + 1, fs, p :: ps, hf, hg => by
    rw [sweepLoopFuel, sweepLoopFuel]
    rcases hA : attemptAll fs (p :: ps) with ⟨fs', lg, remaining⟩
    simp only [hA]
    by_cases hlen : remaining.length = (p :: ps).length
    · rw [if_pos hlen, if_pos hlen]
    · rw [if_neg hlen, if_neg hlen]
      have hle : remaining.length ≤ f ∧ remaining.length ≤ g := by
        have h1 := attemptAll_len_le (p :: ps) fs
        simp only [hA] at h1
        simp only [List.length_cons] at h1 hlen hf hg
        omega
      rw [sweepLoopFuel_irrel f g fs' remaining hle.1 hle.2]
    all_goals exact fun h => List.noConfusion h

theorem sweepLoop_spec (fs : FS) (pending : List String) :
    attemptAll (sweepLoop fs pending).1 (sweepLoop fs pending).2.2
      = ((sweepLoop fs pending).1, [], (sweepLoop fs pending).2.2) ∧
    ((sweepLoop fs pending).2.2 = [] ∨
      Log.notDeletedTerminal (sweepLoop fs pending).2.2 ∈ (sweepLoop fs pending).2.1) := by
  rw [sweepLoop]
  exact sweepLoopFuel_spec pending.length fs pending (Nat.le_refl _)

/-- C7: the directory-deletion phase terminates.  The retry loop fuel of
`pending.length` is always sufficient (any larger fuel computes the same
result, because every continuing sweep strictly shrinks the pending set,
the remainder of each sweep being at most as long as its input), and on
completion the remaining set is a true fixed point — one more sweep from
the final state would delete nothing — which, when non-empty, has been
reported as a terminal failure while the run still returns normally. -/
theorem delete_dirs_terminates :
    (∀ (fsA : FS) (pend : List String) (extra : Nat),
      sweepLoopFuel (pend.length + extra) fsA pend = sweepLoop fsA pend) ∧
    (∀ (fsA : FS) (pend : List String),
      ((attemptAll fsA pend).2.2).length ≤ pend.length) ∧
    (∀ (fs : FS) (base_path : String) (moved : List (DirFile × DirFile))
        (deleted : List DirFile),
      attemptAll (delete_dirs fs base_path moved deleted).1
          (delete_dirs fs base_path moved deleted).2.2
        = ((delete_dirs fs base_path moved deleted).1, [],
           (delete_dirs fs base_path moved deleted).2.2) ∧
      ((delete_dirs fs base_path moved deleted).2.2 = [] ∨
        Log.notDeletedTerminal (delete_dirs fs base_path moved deleted).2.2
          ∈ (delete_dirs fs base_path moved deleted).2.1)) := by
  refine ⟨?_, ?_, ?_⟩
  · intro fsA pend extra
    rw [sweepLoop]
    exact sweepLoopFuel_irrel _ _ fsA pend (Nat.le_add_right _ _) (Nat.le_refl _)
  · intro fsA pend
    exact attemptAll_len_le pend fsA
  · intro fs base_path moved deleted
    rw [delete_dirs]
    rcases hA : attemptAll fs (deleted.reverse.map (fun e => pjoin base_path e.str)
        ++ moved.reverse.map (fun pr => pjoin base_path pr.2.str)) with ⟨fs1, lg1, pending⟩
    rcases hS : sweepLoop fs1 pending with ⟨fs2, lg2, rem⟩
    have hspec := sweepLoop_spec fs1 pending
    rw [hS] at hspec
    simp only [hA, hS]
    refine ⟨hspec.1, ?_⟩
    rcases hspec.2 with h | h
    · exact Or.inl h
    · exact Or.inr (List.mem_append_right lg1 h)

theorem delete_directory_nonexistent (fs : FS) (p : String)
    (hp : fs.pathExists p = false) :
    delete_directory fs p = (true, fs, [Log.dirMissingErr p]) := by
  rw [delete_directory]
  simp [hp]

theorem pathExists_delete_directory (fs : FS) (q p : String)
    (hp : fs.pathExists p = false) :
    ((delete_directory fs q).2.1).pathExists p = false := by
  rw [delete_directory]
  cases he : fs.pathExists q
  · simp only [he, Bool.not_false, if_true]
    exact hp
  · cases hd : (fs.dirExists q && !fs.dirHasChild q)
    · simp only [he, hd, Bool.not_true, Bool.false_eq_true, if_false]
      exact hp
    · simp only [he, hd, Bool.not_true, Bool.false_eq_true, if_false, if_true]
      rw [FS.pathExists, FS.fileExists, FS.dirExists] at hp ⊢
      simp only [Bool.or_eq_false_iff, List.any_eq_false] at hp ⊢
      refine ⟨hp.1, ?_⟩
      intro x hx
      exact hp.2 x (List.mem_of_mem_filter hx)

theorem delete_directory_log_cases (fs : FS) (q : String) :
    (delete_directory fs q).2.2 = [] ∨
    (delete_directory fs q).2.2 = [Log.dirMissingErr q] ∨
    (delete_directory fs q).2.2 = [Log.dirDeleted q] := by
  rw [delete_directory]
  cases he : fs.pathExists q
  · simp
  · cases hd : (fs.dirExists q && !fs.dirHasChild q) <;> simp [hd]

theorem attemptAll_nonexistent : ∀ (l : List String) (fs : FS) (p : String),
    fs.pathExists p = false →
    ((attemptAll fs l).1).pathExists p = false ∧ p ∉ (attemptAll fs l).2.2
  | [], fs, p, hp => ⟨hp, List.not_mem_nil p⟩
  | q :: rest, fs, p, hp => by
    rw [attemptAll]
    rcases hd : delete_directory fs q with ⟨ok, fs', lg⟩
    rcases ha : attemptAll fs' rest with ⟨fs'', lg', rem⟩
    have hfs' : fs'.pathExists p = false := by
      have hmono := pathExists_delete_directory fs q p hp
      rw [hd] at hmono
      exact hmono
    have IH := attemptAll_nonexistent rest fs' p hfs'
    rw [ha] at IH
    simp only [hd, ha]
    refine ⟨IH.1, ?_⟩
    cases ok
    · simp only [Bool.false_eq_true, if_false]
      intro hmem
      rcases List.mem_cons.mp hmem with rfl | hm
      · have hne := delete_directory_nonexistent fs p hp
        rw [hd] at hne
        simp only [Prod.mk.injEq] at hne
        exact Bool.false_ne_true hne.1
      · exact IH.2 hm
    · simp only [if_true]
      exact IH.2

theorem attemptAll_no_terminal : ∀ (l : List String) (fs : FS) (ds : List String),
    Log.notDeletedTerminal ds ∉ (attemptAll fs l).2.1
  | [], _, _ => List.not_mem_nil _
  | q :: rest, fs, ds => by
    rw [attemptAll]
    rcases hd : delete_directory fs q with ⟨ok, fs', lg⟩
    rcases ha : attemptAll fs' rest with ⟨fs'', lg', rem⟩
    simp only [hd, ha]
    intro hmem
    rcases List.mem_append.mp hmem with h | h
    · have hcase := delete_directory_log_cases fs q
      rw [hd] at hcase
      have hlg : lg = [] ∨ lg = [Log.dirMissingErr q] ∨ lg = [Log.dirDeleted q] := hcase
      rcases hlg with hc | hc | hc <;> rw [hc] at h <;> simp at h
    · exact attemptAll_no_terminal rest fs' ds (ha ▸ h)

theorem sweepLoopFuel_nonexistent :
    ∀ (fuel : Nat) (fs : FS) (pending : List String) (p : String),
      pending.length ≤ fuel → fs.pathExists p = false →
      ((sweepLoopFuel fuel fs pending).1).pathExists p = false ∧
      p ∉ (sweepLoopFuel fuel fs pending).2.2 ∧
      (∀ ds, Log.notDeletedTerminal ds ∈ (sweepLoopFuel fuel fs pending).2.1 → p ∉ ds)
  | fuel, fs, [], p, _, hp => by
    rw [sweepLoopFuel_nil]
    exact ⟨hp, List.not_mem_nil p, by simp⟩
  | 0, fs, q :: ps, p, hf, _ => by simp at hf
  | fuel + 1, fs, q :: ps, p, hf, hp => by
    rw [sweepLoopFuel]
    rcases hA : attemptAll fs (q :: ps) with ⟨fs', lg, remaining⟩
    have hInv := attemptAll_nonexistent (q :: ps) fs p hp
    rw [hA] at hInv
    have hNoTerm : ∀ ds, Log.notDeletedTerminal ds ∉ lg := by
      intro ds hm
      have hn := attemptAll_no_terminal (q :: ps) fs ds
      rw [hA] at hn
      exact hn hm
    simp only [hA]
    by_cases hlen : remaining.length = (q :: ps).length
    · rw [if_pos hlen]
      refine ⟨hInv.1, hInv.2, ?_⟩
      intro ds hm
      rcases List.mem_append.mp hm with h | h
      · exact absurd h (hNoTerm ds)
      · rw [List.mem_singleton] at h
        injection h with h
        rw [h]
        exact hInv.2
    · rw [if_neg hlen]
      rcases hS : sweepLoopFuel fuel fs' remaining with ⟨fs'', lg', rem'⟩
      have hle : remaining.length ≤ fuel := by
        have h1 := attemptAll_len_le (q :: ps) fs
        simp only [hA] at h1
        simp only [List.length_cons] at h1 hlen hf
        omega
      have IH := sweepLoopFuel_nonexistent fuel fs' remaining p hle hInv.1
      rw [hS] at IH
      simp only [hS]
      refine ⟨IH.1, IH.2.1, ?_⟩
      intro ds hm
      rcases List.mem_append.mp hm with h | h
      · exact absurd h (hNoTerm ds)
      · exact IH.2.2 ds h
    all_goals exact fun h => List.noConfusion h

/-- C10: attempting to delete a directory path that does not exist counts
as a successful deletion (reported as an error line, result `True`): such
a path is never collected into the pending retry set of the
directory-deletion phase and never appears in the terminal not-deleted
report. -/
theorem nonexistent_dir_counts_deleted (fs : FS) (p : String)
    (hp : fs.pathExists p = false) :
    delete_directory fs p = (true, fs, [Log.dirMissingErr p]) ∧
    (∀ l, p ∉ (attemptAll fs l).2.2) ∧
    (∀ (base_path : String) (moved : List (DirFile × DirFile))
        (deleted : List DirFile),
      p ∉ (delete_dirs fs base_path moved deleted).2.2 ∧
      ∀ ds, Log.notDeletedTerminal ds ∈ (delete_dirs fs base_path moved deleted).2.1 →
        p ∉ ds) := by
  refine ⟨delete_directory_nonexistent fs p hp, ?_, ?_⟩
  · intro l
    exact (attemptAll_nonexistent l fs p hp).2
  · intro base_path moved deleted
    rw [delete_dirs]
    rcases hA : attemptAll fs (deleted.reverse.map (fun e => pjoin base_path e.str)
        ++ moved.reverse.map (fun pr => pjoin base_path pr.2.str)) with ⟨fs1, lg1, pending⟩
    rcases hS : sweepLoop fs1 pending with ⟨fs2, lg2, rem⟩
    have hInv := attemptAll_nonexistent (deleted.reverse.map (fun e => pjoin base_path e.str)
        ++ moved.reverse.map (fun pr => pjoin base_path pr.2.str)) fs p hp
    rw [hA] at hInv
    have hsweep := sweepLoopFuel_nonexistent pending.length fs1 pending p
      (Nat.le_refl _) hInv.1
    rw [← sweepLoop] at hsweep
    rw [hS] at hsweep
    have hNoTerm : ∀ ds, Log.notDeletedTerminal ds ∉ lg1 := by
      intro ds hm
      have hn := attemptAll_no_terminal (deleted.reverse.map (fun e => pjoin base_path e.str)
        ++ moved.reverse.map (fun pr => pjoin base_path pr.2.str)) fs ds
      rw [hA] at hn
      exact hn hm
    simp only [hA, hS]
    refine ⟨hsweep.2.1, ?_⟩
    intro ds hm
    rcases List.mem_append.mp hm with h | h
    · exact absurd h (hNoTerm ds)
    · exact hsweep.2.2 ds h

/-- Witness for `nonexistent_dir_counts_deleted`. -/
theorem nonexistent_dir_counts_deleted_witness :
    fsOnlyBX.pathExists "zzz" = false ∧
    delete_directory fsOnlyBX "zzz" = (true, fsOnlyBX, [Log.dirMissingErr "zzz"]) :=
  ⟨by decide, (nonexistent_dir_counts_deleted fsOnlyBX "zzz" (by decide)).1⟩

end FileSync
